import Mathlib

/-!
Shallow embedding of the Atari-Go game core (src/Atari-Go.py).

The board is the numpy `size × size` matrix of cell codes
(0 = empty, 1 = black, 2 = white), embedded as a function from
(col, row) pairs to the stored code; only positions with both
coordinates below the size are meaningful, and every operation of the
source reads and writes only such positions.  `get_stone_groups`
delegates to networkx (`grid_graph` on the size × size grid, removal of
the non-stone nodes, `connected_components`): its documented result,
the maximal 4-connected components of the stones of one color, is
embedded as an iterated flood fill over the stone set and proved below
to coincide with the equivalence classes of the reflexive-transitive
closure of same-color adjacency.
-/

namespace AtariGo

/-- A board position: a `(col, row)` pair of natural numbers. -/
abbrev Pos := Nat × Nat

/-- The board contents, `self.board` of the source: the `size × size`
numpy matrix as a function from positions to the stored cell code
(0 = empty, 1 = black, 2 = white). -/
abbrev Board := Pos → Nat

/-- A stone color, the `"black"` / `"white"` strings of the source. -/
inductive Color where
  | black : Color
  | white : Color
deriving DecidableEq

/-- The numeric code of a color, `1 if color == "black" else 2`. -/
def Color.code : Color → Nat
  | Color.black => 1
  | Color.white => 2

/-- The opposing color (`other_color` in `Game.handle_captures`). -/
def Color.other : Color → Color
  | Color.black => Color.white
  | Color.white => Color.black

/-- The `WINNING_SCORE` constant of the source. -/
def WINNING_SCORE : Nat := 1

/-- Writing one cell of the board, `self.board[col, row] = v`. -/
def setCell (b : Board) (p : Pos) (v : Nat) : Board :=
  fun q => if q = p then v else b q

/-- One member's liberty scan inside `has_no_liberties`: stone `(x, y)`
has a liberty iff one of its guarded neighbour reads finds an empty
cell.  The source returns `False` (some liberty) exactly when one of
the four guarded tests `x > 0 and board[x-1, y] == 0`, … fires; `n` is
`board.shape[0]`. -/
def stoneHasLiberty (n : Nat) (b : Board) (x y : Nat) : Bool :=
  (decide (0 < x) && decide (b (x - 1, y) = 0)) ||
  (decide (0 < y) && decide (b (x, y - 1) = 0)) ||
  (decide (x < n - 1) && decide (b (x + 1, y) = 0)) ||
  (decide (y < n - 1) && decide (b (x, y + 1) = 0))

/-- `has_no_liberties(board, group)` of the source: `True` iff no member
of the group passes any of the four guarded empty-neighbour tests. -/
def has_no_liberties (n : Nat) (b : Board) (group : Finset Pos) : Bool :=
  decide (∀ p ∈ group, stoneHasLiberty n b p.1 p.2 = false)

/-- 4-adjacency of grid positions (the edge relation of
`nx.grid_graph(dim=[size, size])`): the two positions differ by exactly
one in exactly one coordinate. -/
def adjacent (p q : Pos) : Prop :=
  (p.1 = q.1 ∧ (p.2 = q.2 + 1 ∨ q.2 = p.2 + 1)) ∨
  (p.2 = q.2 ∧ (p.1 = q.1 + 1 ∨ q.1 = p.1 + 1))

instance (p q : Pos) : Decidable (adjacent p q) := by
  unfold adjacent
  exact inferInstance

/-- All positions of the `n × n` grid. -/
def allPos (n : Nat) : Finset Pos :=
  Finset.range n ×ˢ Finset.range n

/-- The stones of one color: `np.where(board == color_code)` restricted
to the grid. -/
def stonesOf (n : Nat) (b : Board) (c : Color) : Finset Pos :=
  (allPos n).filter (fun p => b p = c.code)

/-- One round of flood fill inside a fixed stone set: keep the stones
already collected and add every stone adjacent to a collected one. -/
def grow (stones : Finset Pos) (s : Finset Pos) : Finset Pos :=
  stones.filter (fun q => q ∈ s ∨ ∃ p ∈ s, adjacent p q)

/-- The connected component of `p` inside `stones`: flood fill iterated
until it must have stabilised. -/
def component (stones : Finset Pos) (p : Pos) : Finset Pos :=
  (grow stones)^[stones.card] {p}

/-- `get_stone_groups(board, color)` of the source: the connected
components returned by networkx on the grid graph restricted to the
stones of `color`, one component per stone. -/
def get_stone_groups (n : Nat) (b : Board) (c : Color) : Finset (Finset Pos) :=
  (stonesOf n b c).image (component (stonesOf n b c))

/-- The grid positions in row-major scan order. -/
def posList (n : Nat) : List Pos :=
  (List.range n).product (List.range n)

/-- The color's groups materialised as a list, `list(get_stone_groups(...))`
of the source: one entry per group, in some enumeration order (the
source's order is whatever networkx yields; the equivalence theorem
below is proved for every enumeration of the group set). -/
def groupList (n : Nat) (b : Board) (c : Color) : List (Finset Pos) :=
  (((posList n).filter (fun p => decide (b p = c.code))).map
    (component (stonesOf n b c))).dedup

/-- The body of the loop of `Game.capture_stones`: if the group fails
the liberty check against the current (possibly already mutated) board,
zero out its stones and add their number to the running count. -/
def captureStep (n : Nat) (acc : Board × Nat) (g : Finset Pos) : Board × Nat :=
  if has_no_liberties n acc.1 g then
    (fun q => if q ∈ g then 0 else acc.1 q, acc.2 + g.card)
  else acc

/-- `Game.capture_stones(color)` of the source: walk the materialised
list of the color's groups, applying the loop body to each in turn. -/
def capture_stones (n : Nat) (b : Board) (c : Color) : Board × Nat :=
  (groupList n b c).foldl (captureStep n) (b, 0)

/-- Simultaneous capture, following the spec: every group of the color
whose liberties, measured on the board exactly as given (after the
placement and before any removal of this sweep), are zero is removed at
once, and the captured count is the total number of stones of those
groups. -/
def capture_simultaneous (n : Nat) (b : Board) (c : Color) : Board × Nat :=
  (fun q =>
      if ∃ g ∈ get_stone_groups n b c, has_no_liberties n b g = true ∧ q ∈ g then 0
      else b q,
    ∑ g ∈ (get_stone_groups n b c).filter (fun g => has_no_liberties n b g = true), g.card)

/-- `is_valid_move(col, row, board)` of the source (the free function
and the identical `Game.is_valid_move` method): reject a coordinate
outside `[0, size)` on either axis, then test emptiness. -/
def is_valid_move (col row : Int) (n : Nat) (b : Board) : Bool :=
  if col < 0 || (n : Int) ≤ col then false
  else if row < 0 || (n : Int) ≤ row then false
  else decide (b (col.toNat, row.toNat) = 0)

/-- The mutable fields of the `Game` object that the core logic touches:
the board, whose turn it is, and the two prisoner counters
(`self.prisoners["black"]` and `self.prisoners["white"]`). -/
structure GameState where
  board : Board
  black_turn : Bool
  prisoners_black : Nat
  prisoners_white : Nat

/-- `Game.handle_captures`: sweep the opponent of the player who just
moved and credit the captured count to that player. -/
def handle_captures (n : Nat) (s : GameState) : GameState :=
  let other_color : Color := if s.black_turn then Color.white else Color.black
  let res := capture_stones n s.board other_color
  if s.black_turn then
    { s with board := res.1, prisoners_black := s.prisoners_black + res.2 }
  else
    { s with board := res.1, prisoners_white := s.prisoners_white + res.2 }

/-- `Game.place_stone`: write the mover's code at the cell, then run the
capture pass. -/
def place_stone (n : Nat) (s : GameState) (col row : Nat) : GameState :=
  let player : Nat := if s.black_turn then 1 else 2
  handle_captures n { s with board := setCell s.board (col, row) player }

/-- `Game.check_winner`: black's counter is tested first against
`WINNING_SCORE`, then white's. -/
def check_winner (s : GameState) : Option Color :=
  if WINNING_SCORE ≤ s.prisoners_black then some Color.black
  else if WINNING_SCORE ≤ s.prisoners_white then some Color.white
  else none

/-- `Game.handle_click` restricted to the core state (the sound effect,
the winner popup and the redraw mutate no core field): an invalid
coordinate returns with nothing changed; otherwise the stone is placed,
captures resolved, and the turn toggles.  There is no game-over guard
anywhere in the source: the winner check only selects a popup. -/
def handle_click (n : Nat) (s : GameState) (col row : Int) : GameState :=
  if is_valid_move col row n s.board = false then s
  else
    let s1 := place_stone n s col.toNat row.toNat
    { s1 with black_turn := ! s1.black_turn }

/-- `Game.pass_move`: toggle the turn, touch nothing else. -/
def pass_move (s : GameState) : GameState :=
  { s with black_turn := ! s.black_turn }

/-- A position is on the `n × n` grid. -/
def inBounds (n : Nat) (p : Pos) : Prop :=
  p.1 < n ∧ p.2 < n

instance (n : Nat) (p : Pos) : Decidable (inBounds n p) := by
  unfold inBounds
  exact inferInstance

/-- Same-color adjacency inside a fixed stone set: the edge relation of
the graph networkx is asked to decompose. -/
def adjS (stones : Finset Pos) (p q : Pos) : Prop :=
  p ∈ stones ∧ q ∈ stones ∧ adjacent p q

/-- Connectivity inside a stone set: reflexive-transitive closure of
same-color adjacency. -/
def Conn (stones : Finset Pos) : Pos → Pos → Prop :=
  Relation.ReflTransGen (adjS stones)

/-- The simultaneous removal of a set of groups from the board. -/
def removeSet (b : Board) (R : Finset (Finset Pos)) : Board :=
  fun q => if ∃ g ∈ R, q ∈ g then 0 else b q

/-- The groups of a color that fail the liberty check against the given
board. -/
def deadGroups (n : Nat) (b : Board) (c : Color) : Finset (Finset Pos) :=
  (get_stone_groups n b c).filter (fun g => has_no_liberties n b g = true)

/-- A 2 × 2 board with white stones at (0, 1) and (1, 0): the two
in-bounds neighbours of the corner (0, 0). -/
def bSuicide : Board :=
  fun q => if q = ((0 : Nat), (1 : Nat)) ∨ q = ((1 : Nat), (0 : Nat)) then 2 else 0

/-- Black to move on `bSuicide`, no prisoners yet. -/
def sSuicide : GameState :=
  { board := bSuicide, black_turn := true, prisoners_black := 0, prisoners_white := 0 }

/-- An all-empty board. -/
def bEmpty : Board := fun _ => 0

/-- A 3 × 3 board: a black stone at (1, 1) surrounded by white stones at
(0, 1), (2, 1), (1, 0); white is about to play (1, 2) and capture. -/
def bAlmost : Board :=
  fun q =>
    if q = ((1 : Nat), (1 : Nat)) then 1
    else if q = ((0 : Nat), (1 : Nat)) ∨ q = ((2 : Nat), (1 : Nat)) ∨
        q = ((1 : Nat), (0 : Nat)) then 2
    else 0

/-- White to move on `bAlmost`. -/
def sAlmost : GameState :=
  { board := bAlmost, black_turn := false, prisoners_black := 0, prisoners_white := 0 }

/-- A state whose winner is already decided (black reached the winning
score) with an empty 2 × 2 board and white to move. -/
def sWon : GameState :=
  { board := bEmpty, black_turn := false, prisoners_black := 1, prisoners_white := 0 }

/-- A 3 × 3 board on which two separate black groups are simultaneously
out of liberties: black stones at (0, 0) and (2, 0), white stones at
(1, 0), (0, 1) and (2, 1). -/
def bTwo : Board :=
  fun q =>
    if q = ((0 : Nat), (0 : Nat)) ∨ q = ((2 : Nat), (0 : Nat)) then 1
    else if q = ((1 : Nat), (0 : Nat)) ∨ q = ((0 : Nat), (1 : Nat)) ∨
        q = ((2 : Nat), (1 : Nat)) then 2
    else 0

/-- A 2 × 2 board with a single black stone at (0, 0). -/
def bOne : Board :=
  fun q => if q = ((0 : Nat), (0 : Nat)) then 1 else 0

/-- A board filled with black stones everywhere. -/
def bFull : Board := fun _ => 1

theorem adjacent_symm {p q : Pos} (h : adjacent p q) : adjacent q p := by
  unfold adjacent at h ⊢
  tauto

theorem adjS_symm (stones : Finset Pos) : Symmetric (adjS stones) := by
  intro p q h
  exact ⟨h.2.1, h.1, adjacent_symm h.2.2⟩

theorem conn_symm {stones : Finset Pos} {p q : Pos} (h : Conn stones p q) :
    Conn stones q p :=
  Relation.ReflTransGen.symmetric (adjS_symm stones) h

theorem conn_trans {stones : Finset Pos} {p q r : Pos}
    (h1 : Conn stones p q) (h2 : Conn stones q r) : Conn stones p r :=
  Relation.ReflTransGen.trans h1 h2

theorem mem_stones_of_conn {stones : Finset Pos} {p q : Pos}
    (hp : p ∈ stones) (h : Conn stones p q) : q ∈ stones := by
  induction h with
  | refl => exact hp
  | tail _ step _ => exact step.2.1

theorem grow_subset (stones s : Finset Pos) : grow stones s ⊆ stones :=
  Finset.filter_subset _ _

theorem subset_grow {stones s : Finset Pos} (hs : s ⊆ stones) :
    s ⊆ grow stones s := by
  intro q hq
  exact Finset.mem_filter.2 ⟨hs hq, Or.inl hq⟩

theorem iterate_subset {stones : Finset Pos} {p : Pos} (hp : p ∈ stones) :
    ∀ k, (grow stones)^[k] {p} ⊆ stones := by
  intro k
  cases k with
  | zero => simpa using Finset.singleton_subset_iff.2 hp
  | succ k =>
    rw [Function.iterate_succ_apply']
    exact grow_subset _ _

theorem iterate_succ_subset {stones : Finset Pos} {p : Pos} (hp : p ∈ stones) (k : Nat) :
    (grow stones)^[k] {p} ⊆ (grow stones)^[k + 1] {p} := by
  rw [Function.iterate_succ_apply']
  exact subset_grow (iterate_subset hp k)

theorem iterate_mono {stones : Finset Pos} {p : Pos} (hp : p ∈ stones)
    {j m : Nat} (h : j ≤ m) :
    (grow stones)^[j] {p} ⊆ (grow stones)^[m] {p} := by
  induction m with
  | zero =>
    cases Nat.le_zero.1 h
    exact fun q hq => hq
  | succ m ih =>
    rcases Nat.lt_or_ge j (m + 1) with hlt | hge
    · exact (ih (Nat.lt_succ_iff.1 hlt)).trans (iterate_succ_subset hp m)
    · cases Nat.le_antisymm h hge
      exact fun q hq => hq

theorem conn_of_mem_iterate {stones : Finset Pos} {p : Pos} (hp : p ∈ stones) :
    ∀ k q, q ∈ (grow stones)^[k] {p} → Conn stones p q := by
  intro k
  induction k with
  | zero =>
    intro q hq
    rcases Finset.mem_singleton.1 hq with rfl
    exact Relation.ReflTransGen.refl
  | succ k ih =>
    intro q hq
    rw [Function.iterate_succ_apply'] at hq
    rcases Finset.mem_filter.1 hq with ⟨hqs, hcase⟩
    rcases hcase with hmem | ⟨r, hr, hadj⟩
    · exact ih q hmem
    · exact Relation.ReflTransGen.tail (ih r hr) ⟨iterate_subset hp k hr, hqs, hadj⟩

theorem iterate_eventually_eq {stones : Finset Pos} {p : Pos} {j d : Nat}
    (h : (grow stones)^[j] {p} = (grow stones)^[j + 1] {p}) :
    (grow stones)^[j + d] {p} = (grow stones)^[j] {p} := by
  induction d with
  | zero => rfl
  | succ d ih =>
    have : j + (d + 1) = (j + d) + 1 := by omega
    rw [this, Function.iterate_succ_apply', ih]
    exact ((Function.iterate_succ_apply' (grow stones) j ({p} : Finset Pos)).symm).trans h.symm

theorem grow_component {stones : Finset Pos} {p : Pos} (hp : p ∈ stones) :
    grow stones (component stones p) = component stones p := by
  have hstab : ∃ j, j ≤ stones.card ∧
      (grow stones)^[j] {p} = (grow stones)^[j + 1] {p} := by
    by_contra hcon
    push_neg at hcon
    have haux : ∀ k, k ≤ stones.card → k + 1 ≤ ((grow stones)^[k] {p}).card := by
      intro k
      induction k with
      | zero => intro _; simp
      | succ k ih =>
        intro hk
        have hk' : k ≤ stones.card := Nat.le_of_succ_le hk
        have h1 := ih hk'
        have hne := hcon k hk'
        have hss : (grow stones)^[k] {p} ⊂ (grow stones)^[k + 1] {p} :=
          Finset.ssubset_iff_subset_ne.2 ⟨iterate_succ_subset hp k, hne⟩
        have := Finset.card_lt_card hss
        omega
    have h1 := haux stones.card (Nat.le_refl _)
    have h2 := Finset.card_le_card (iterate_subset hp stones.card)
    omega
  rcases hstab with ⟨j, hj, hfix⟩
  have hN : stones.card = j + (stones.card - j) := by omega
  have heq : component stones p = (grow stones)^[j] {p} := by
    unfold component
    rw [hN]
    exact iterate_eventually_eq hfix
  calc grow stones (component stones p)
      = grow stones ((grow stones)^[j] {p}) := by rw [heq]
    _ = (grow stones)^[j + 1] {p} := (Function.iterate_succ_apply' _ _ _).symm
    _ = (grow stones)^[j] {p} := hfix.symm
    _ = component stones p := heq.symm

theorem mem_component_self {stones : Finset Pos} {p : Pos} (hp : p ∈ stones) :
    p ∈ component stones p :=
  iterate_mono hp (Nat.zero_le _) (Finset.mem_singleton_self p)

theorem mem_component_of_conn {stones : Finset Pos} {p q : Pos} (hp : p ∈ stones)
    (h : Conn stones p q) : q ∈ component stones p := by
  induction h with
  | refl => exact mem_component_self hp
  | tail _ step ih =>
    rw [← grow_component hp]
    exact Finset.mem_filter.2 ⟨step.2.1, Or.inr ⟨_, ih, step.2.2⟩⟩

theorem conn_of_mem_component {stones : Finset Pos} {p q : Pos} (hp : p ∈ stones)
    (h : q ∈ component stones p) : Conn stones p q :=
  conn_of_mem_iterate hp _ q h

theorem mem_component_iff {stones : Finset Pos} {p : Pos} (hp : p ∈ stones) (q : Pos) :
    q ∈ component stones p ↔ Conn stones p q :=
  ⟨conn_of_mem_component hp, mem_component_of_conn hp⟩

theorem component_subset {stones : Finset Pos} {p : Pos} (hp : p ∈ stones) :
    component stones p ⊆ stones :=
  iterate_subset hp _

theorem component_eq_of_conn {stones : Finset Pos} {p q : Pos}
    (hp : p ∈ stones) (h : Conn stones p q) :
    component stones p = component stones q := by
  have hq : q ∈ stones := mem_stones_of_conn hp h
  ext r
  rw [mem_component_iff hp, mem_component_iff hq]
  exact ⟨fun hr => conn_trans (conn_symm h) hr, fun hr => conn_trans h hr⟩

theorem mem_get_stone_groups {n : Nat} {b : Board} {c : Color} {g : Finset Pos} :
    g ∈ get_stone_groups n b c ↔
      ∃ p ∈ stonesOf n b c, component (stonesOf n b c) p = g := by
  unfold get_stone_groups
  exact Finset.mem_image

theorem mem_stonesOf {n : Nat} {b : Board} {c : Color} {p : Pos} :
    p ∈ stonesOf n b c ↔ (p.1 < n ∧ p.2 < n) ∧ b p = c.code := by
  unfold stonesOf allPos
  rcases p with ⟨x, y⟩
  simp [Finset.mem_filter, Finset.mem_product]

theorem group_subset_stones {n : Nat} {b : Board} {c : Color} {g : Finset Pos}
    (hg : g ∈ get_stone_groups n b c) : g ⊆ stonesOf n b c := by
  rcases mem_get_stone_groups.1 hg with ⟨p, hp, rfl⟩
  exact component_subset hp

theorem component_eq_of_mem {stones : Finset Pos} {p q : Pos} (hp : p ∈ stones)
    (hq : q ∈ component stones p) :
    component stones q = component stones p :=
  (component_eq_of_conn hp (conn_of_mem_component hp hq)).symm

theorem group_eq_component {n : Nat} {b : Board} {c : Color} {g : Finset Pos}
    (hg : g ∈ get_stone_groups n b c) {p : Pos} (hp : p ∈ g) :
    g = component (stonesOf n b c) p := by
  rcases mem_get_stone_groups.1 hg with ⟨r, hr, rfl⟩
  exact (component_eq_of_mem hr hp).symm

theorem groups_disjoint {n : Nat} {b : Board} {c : Color} {g₁ g₂ : Finset Pos}
    (h1 : g₁ ∈ get_stone_groups n b c) (h2 : g₂ ∈ get_stone_groups n b c)
    (hne : g₁ ≠ g₂) {q : Pos} (hq1 : q ∈ g₁) : q ∉ g₂ := by
  intro hq2
  exact hne ((group_eq_component h1 hq1).trans (group_eq_component h2 hq2).symm)

theorem groups_closed {n : Nat} {b : Board} {c : Color} {g : Finset Pos}
    (hg : g ∈ get_stone_groups n b c) {p q : Pos} (hp : p ∈ g)
    (hq : q ∈ stonesOf n b c) (hadj : adjacent p q) : q ∈ g := by
  have hps : p ∈ stonesOf n b c := group_subset_stones hg hp
  rw [group_eq_component hg hp]
  exact mem_component_of_conn hps (Relation.ReflTransGen.single ⟨hps, hq, hadj⟩)

theorem no_cross_adjacency {n : Nat} {b : Board} {c : Color} {g₁ g₂ : Finset Pos}
    (h1 : g₁ ∈ get_stone_groups n b c) (h2 : g₂ ∈ get_stone_groups n b c)
    (hne : g₁ ≠ g₂) {p q : Pos} (hp : p ∈ g₁) (hq : q ∈ g₂) : ¬ adjacent p q := by
  intro hadj
  have hqs : q ∈ stonesOf n b c := group_subset_stones h2 hq
  exact groups_disjoint h1 h2 hne (groups_closed h1 hp hqs hadj) hq

theorem stone_mem_own_group {n : Nat} {b : Board} {c : Color} {p : Pos}
    (hp : p ∈ stonesOf n b c) :
    component (stonesOf n b c) p ∈ get_stone_groups n b c ∧
      p ∈ component (stonesOf n b c) p :=
  ⟨mem_get_stone_groups.2 ⟨p, hp, rfl⟩, mem_component_self hp⟩

theorem groups_cover {n : Nat} {b : Board} {c : Color} (p : Pos) :
    (∃ g ∈ get_stone_groups n b c, p ∈ g) ↔ p ∈ stonesOf n b c := by
  constructor
  · rintro ⟨g, hg, hp⟩
    exact group_subset_stones hg hp
  · intro hp
    exact ⟨_, (stone_mem_own_group hp).1, (stone_mem_own_group hp).2⟩

theorem group_connected {n : Nat} {b : Board} {c : Color} {g : Finset Pos}
    (hg : g ∈ get_stone_groups n b c) {p q : Pos} (hp : p ∈ g) (hq : q ∈ g) :
    Conn (stonesOf n b c) p q := by
  have hps : p ∈ stonesOf n b c := group_subset_stones hg hp
  rw [group_eq_component hg hp] at hq
  exact conn_of_mem_component hps hq

theorem component_isolated {stones : Finset Pos} {p : Pos} (hp : p ∈ stones)
    (hiso : ∀ q ∈ stones, ¬ adjacent p q) : component stones p = {p} := by
  apply Finset.Subset.antisymm
  · intro r hr
    have hconn := conn_of_mem_component hp hr
    rcases Relation.ReflTransGen.cases_head hconn with rfl | ⟨q, hstep, _⟩
    · exact Finset.mem_singleton_self p
    · exact absurd hstep.2.2 (hiso q hstep.2.1)
  · intro r hr
    rcases Finset.mem_singleton.1 hr with rfl
    exact mem_component_self hp

theorem singleton_group {n : Nat} {b : Board} {c : Color} {p : Pos}
    (hp : p ∈ stonesOf n b c) (hiso : ∀ q ∈ stonesOf n b c, ¬ adjacent p q) :
    ({p} : Finset Pos) ∈ get_stone_groups n b c := by
  have := (stone_mem_own_group hp).1
  rwa [component_isolated hp hiso] at this

theorem mem_posList {n : Nat} {p : Pos} : p ∈ posList n ↔ p.1 < n ∧ p.2 < n := by
  unfold posList
  rcases p with ⟨x, y⟩
  simp [List.mem_product]

theorem mem_groupList {n : Nat} {b : Board} {c : Color} {g : Finset Pos} :
    g ∈ groupList n b c ↔ g ∈ get_stone_groups n b c := by
  unfold groupList
  rw [List.mem_dedup, List.mem_map, mem_get_stone_groups]
  constructor
  · rintro ⟨p, hp, rfl⟩
    rcases List.mem_filter.1 hp with ⟨hp1, hp2⟩
    refine ⟨p, ?_, rfl⟩
    exact mem_stonesOf.2 ⟨mem_posList.1 hp1, of_decide_eq_true hp2⟩
  · rintro ⟨p, hp, rfl⟩
    rcases mem_stonesOf.1 hp with ⟨hb, hcode⟩
    exact ⟨p, List.mem_filter.2 ⟨mem_posList.2 hb, decide_eq_true hcode⟩, rfl⟩

theorem groupList_nodup (n : Nat) (b : Board) (c : Color) : (groupList n b c).Nodup :=
  List.nodup_dedup _

theorem groupList_toFinset (n : Nat) (b : Board) (c : Color) :
    (groupList n b c).toFinset = get_stone_groups n b c := by
  ext g
  rw [List.mem_toFinset, mem_groupList]

theorem stoneHasLiberty_congr {n : Nat} {b b' : Board} {x y : Nat}
    (h : ∀ q, adjacent (x, y) q → b q = b' q) :
    stoneHasLiberty n b x y = stoneHasLiberty n b' x y := by
  unfold stoneHasLiberty
  have h3 : b (x + 1, y) = b' (x + 1, y) := h _ (Or.inr ⟨rfl, Or.inr rfl⟩)
  have h4 : b (x, y + 1) = b' (x, y + 1) := h _ (Or.inl ⟨rfl, Or.inr rfl⟩)
  by_cases hx : 0 < x <;> by_cases hy : 0 < y
  · have h1 : b (x - 1, y) = b' (x - 1, y) := h _ (Or.inr ⟨rfl, Or.inl (by omega)⟩)
    have h2 : b (x, y - 1) = b' (x, y - 1) := h _ (Or.inl ⟨rfl, Or.inl (by omega)⟩)
    rw [h1, h2, h3, h4]
  · have h1 : b (x - 1, y) = b' (x - 1, y) := h _ (Or.inr ⟨rfl, Or.inl (by omega)⟩)
    simp [hx, hy, h1, h3, h4]
  · have h2 : b (x, y - 1) = b' (x, y - 1) := h _ (Or.inl ⟨rfl, Or.inl (by omega)⟩)
    simp [hx, hy, h2, h3, h4]
  · simp [hx, hy, h3, h4]

theorem has_no_liberties_congr {n : Nat} {b b' : Board} {g : Finset Pos}
    (h : ∀ p ∈ g, ∀ q, adjacent p q → b q = b' q) :
    has_no_liberties n b g = has_no_liberties n b' g := by
  unfold has_no_liberties
  have hpt : ∀ p ∈ g, stoneHasLiberty n b p.1 p.2 = stoneHasLiberty n b' p.1 p.2 :=
    fun p hp => stoneHasLiberty_congr (fun q hq => h p hp q hq)
  simp only [decide_eq_decide]
  exact forall_congr' fun p => forall_congr' fun hp => by rw [hpt p hp]

theorem removeSet_empty (b : Board) : removeSet b ∅ = b := by
  funext q
  simp [removeSet]

theorem removeSet_insert (b : Board) (g : Finset Pos) (R : Finset (Finset Pos)) :
    (fun q => if q ∈ g then 0 else removeSet b R q) = removeSet b (insert g R) := by
  funext q
  unfold removeSet
  by_cases hq : q ∈ g
  · simp [hq]
  · simp [hq, Finset.mem_insert]

theorem removeSet_agrees_near_group {n : Nat} {b : Board} {c : Color}
    {R : Finset (Finset Pos)} {g : Finset Pos}
    (hg : g ∈ get_stone_groups n b c)
    (hR : ∀ r ∈ R, r ∈ get_stone_groups n b c) (hgR : g ∉ R) :
    ∀ p ∈ g, ∀ q, adjacent p q → removeSet b R q = b q := by
  intro p hp q hadj
  unfold removeSet
  rw [if_neg]
  rintro ⟨r, hrR, hqr⟩
  exact no_cross_adjacency hg (hR r hrR) (fun h => hgR (h ▸ hrR)) hp hqr hadj

theorem capture_fold (n : Nat) (b : Board) (c : Color) :
    ∀ (gs : List (Finset Pos)) (R : Finset (Finset Pos)),
      (∀ g ∈ gs, g ∈ get_stone_groups n b c) →
      (∀ r ∈ R, r ∈ get_stone_groups n b c) →
      (∀ g ∈ gs, g ∉ R) → gs.Nodup →
      gs.foldl (captureStep n) (removeSet b R, ∑ r ∈ R, r.card) =
        (removeSet b (R ∪ gs.toFinset.filter (fun g => has_no_liberties n b g = true)),
         ∑ r ∈ R ∪ gs.toFinset.filter (fun g => has_no_liberties n b g = true), r.card) := by
  intro gs
  induction gs with
  | nil =>
    intro R _ _ _ _
    simp
  | cons g rest ih =>
    intro R hgs hR hdisj hnd
    have hg : g ∈ get_stone_groups n b c := hgs g (List.mem_cons_self g rest)
    have hgR : g ∉ R := hdisj g (List.mem_cons_self g rest)
    have hnd' : rest.Nodup := (List.nodup_cons.1 hnd).2
    have hgrest : g ∉ rest := (List.nodup_cons.1 hnd).1
    have hlib : has_no_liberties n (removeSet b R) g = has_no_liberties n b g :=
      has_no_liberties_congr (removeSet_agrees_near_group hg hR hgR)
    rw [List.foldl_cons]
    by_cases hdead : has_no_liberties n b g = true
    · have hstep : captureStep n (removeSet b R, ∑ r ∈ R, r.card) g =
          (removeSet b (insert g R), ∑ r ∈ insert g R, r.card) := by
        unfold captureStep
        rw [hlib, if_pos hdead, removeSet_insert, Finset.sum_insert hgR, Nat.add_comm]
      rw [hstep,
        ih (insert g R) (fun g' hg' => hgs g' (List.mem_cons_of_mem g hg'))
          (fun r hr => (Finset.mem_insert.1 hr).elim (fun h => h ▸ hg) (hR r))
          (fun g' hg' => by
            rw [Finset.mem_insert]
            push_neg
            exact ⟨fun h => hgrest (h ▸ hg'), hdisj g' (List.mem_cons_of_mem g hg')⟩)
          hnd']
      rw [List.toFinset_cons, Finset.filter_insert, if_pos hdead,
        Finset.union_insert, Finset.insert_union]
    · have hstep : captureStep n (removeSet b R, ∑ r ∈ R, r.card) g =
          (removeSet b R, ∑ r ∈ R, r.card) := by
        unfold captureStep
        rw [hlib, if_neg hdead]
      rw [hstep,
        ih R (fun g' hg' => hgs g' (List.mem_cons_of_mem g hg')) hR
          (fun g' hg' => hdisj g' (List.mem_cons_of_mem g hg')) hnd']
      rw [List.toFinset_cons, Finset.filter_insert, if_neg hdead]

/-- The central refinement fact: the sequential capture sweep of the
source computes the simultaneous capture of the spec. -/
theorem capture_stones_eq (n : Nat) (b : Board) (c : Color) :
    capture_stones n b c = capture_simultaneous n b c := by
  unfold capture_stones
  have h0 : ((b, 0) : Board × Nat) =
      (removeSet b ∅, ∑ r ∈ (∅ : Finset (Finset Pos)), r.card) := by
    rw [removeSet_empty, Finset.sum_empty]
  rw [h0,
    capture_fold n b c (groupList n b c) ∅ (fun g hg => mem_groupList.1 hg)
      (by simp) (by simp) (groupList_nodup n b c),
    Finset.empty_union, groupList_toFinset]
  unfold capture_simultaneous
  refine Prod.ext ?_ rfl
  funext q
  show removeSet b _ q = _
  unfold removeSet
  simp only [Finset.mem_filter, and_assoc]

theorem code_ne_zero (c : Color) : c.code ≠ 0 := by
  cases c <;> simp [Color.code]

theorem capture_stones_board (n : Nat) (b : Board) (c : Color) :
    (capture_stones n b c).1 = removeSet b (deadGroups n b c) := by
  rw [capture_stones_eq]
  unfold capture_simultaneous removeSet deadGroups
  funext q
  simp only [Finset.mem_filter, and_assoc]

theorem stonesOf_capture {n : Nat} {b : Board} {c : Color} {p : Pos} :
    p ∈ stonesOf n (capture_stones n b c).1 c ↔
      p ∈ stonesOf n b c ∧ ¬ ∃ g ∈ deadGroups n b c, p ∈ g := by
  rw [capture_stones_board, mem_stonesOf, mem_stonesOf]
  unfold removeSet
  by_cases hp : ∃ g ∈ deadGroups n b c, p ∈ g
  · simp only [hp, if_true, not_true, and_false, iff_false, not_and]
    intro _
    exact fun h => code_ne_zero c h.symm
  · simp [hp]

theorem survivor_group_alive {n : Nat} {b : Board} {c : Color} {p : Pos}
    (hp : p ∈ stonesOf n b c) (hnd : ¬ ∃ g ∈ deadGroups n b c, p ∈ g) :
    has_no_liberties n b (component (stonesOf n b c) p) = false := by
  cases hcase : has_no_liberties n b (component (stonesOf n b c) p) with
  | false => rfl
  | true =>
    exact absurd
      ⟨_, Finset.mem_filter.2 ⟨(stone_mem_own_group hp).1, hcase⟩, mem_component_self hp⟩
      hnd

theorem component_survives {n : Nat} {b : Board} {c : Color} {p r : Pos}
    (hp : p ∈ stonesOf n b c) (hnd : ¬ ∃ g ∈ deadGroups n b c, p ∈ g)
    (hr : r ∈ component (stonesOf n b c) p) :
    r ∈ stonesOf n (capture_stones n b c).1 c := by
  rw [stonesOf_capture]
  refine ⟨component_subset hp hr, ?_⟩
  rintro ⟨g, hgD, hrg⟩
  have hgG : g ∈ get_stone_groups n b c := (Finset.mem_filter.1 hgD).1
  have hgr : g = component (stonesOf n b c) r := group_eq_component hgG hrg
  have hcomp : component (stonesOf n b c) r = component (stonesOf n b c) p :=
    component_eq_of_mem hp hr
  exact hnd ⟨g, hgD, by rw [hgr, hcomp]; exact mem_component_self hp⟩

theorem conn_capture_iff {n : Nat} {b : Board} {c : Color} {p q : Pos}
    (hp : p ∈ stonesOf n b c) (hnd : ¬ ∃ g ∈ deadGroups n b c, p ∈ g) :
    Conn (stonesOf n (capture_stones n b c).1 c) p q ↔ Conn (stonesOf n b c) p q := by
  constructor
  · intro h
    refine Relation.ReflTransGen.mono ?_ h
    intro a a' haa
    exact ⟨(stonesOf_capture.1 haa.1).1, (stonesOf_capture.1 haa.2.1).1, haa.2.2⟩
  · intro h
    induction h with
    | refl => exact Relation.ReflTransGen.refl
    | tail hpr step ih =>
      exact Relation.ReflTransGen.tail ih
        ⟨component_survives hp hnd (mem_component_of_conn hp hpr),
         component_survives hp hnd
           (mem_component_of_conn hp (Relation.ReflTransGen.tail hpr step)),
         step.2.2⟩

theorem component_capture_eq {n : Nat} {b : Board} {c : Color} {p : Pos}
    (hp : p ∈ stonesOf n b c) (hnd : ¬ ∃ g ∈ deadGroups n b c, p ∈ g) :
    component (stonesOf n (capture_stones n b c).1 c) p =
      component (stonesOf n b c) p := by
  have hp' : p ∈ stonesOf n (capture_stones n b c).1 c :=
    component_survives hp hnd (mem_component_self hp)
  ext r
  rw [mem_component_iff hp', mem_component_iff hp]
  exact conn_capture_iff hp hnd

theorem stoneHasLiberty_of_zeroes {n : Nat} {b b' : Board} {x y : Nat}
    (h : ∀ q, b q = 0 → b' q = 0) (hl : stoneHasLiberty n b x y = true) :
    stoneHasLiberty n b' x y = true := by
  unfold stoneHasLiberty at hl ⊢
  simp only [Bool.or_eq_true, Bool.and_eq_true, decide_eq_true_eq] at hl ⊢
  rcases hl with ((⟨hx, hb⟩ | ⟨hy, hb⟩) | ⟨hx, hb⟩) | ⟨hy, hb⟩
  · exact Or.inl (Or.inl (Or.inl ⟨hx, h _ hb⟩))
  · exact Or.inl (Or.inl (Or.inr ⟨hy, h _ hb⟩))
  · exact Or.inl (Or.inr ⟨hx, h _ hb⟩)
  · exact Or.inr ⟨hy, h _ hb⟩

theorem capture_preserves_empty {n : Nat} {b : Board} {c : Color} (q : Pos)
    (h : b q = 0) : (capture_stones n b c).1 q = 0 := by
  rw [capture_stones_board]
  unfold removeSet
  by_cases hq : ∃ g ∈ deadGroups n b c, q ∈ g
  · simp [hq]
  · simp [hq, h]

theorem capture_no_dead_group (n : Nat) (b : Board) (c : Color) :
    ∀ g ∈ get_stone_groups n (capture_stones n b c).1 c,
      has_no_liberties n (capture_stones n b c).1 g = false := by
  intro g hg
  rcases mem_get_stone_groups.1 hg with ⟨p, hp', rfl⟩
  have hps : p ∈ stonesOf n b c := (stonesOf_capture.1 hp').1
  have hnd : ¬ ∃ g ∈ deadGroups n b c, p ∈ g := (stonesOf_capture.1 hp').2
  rw [component_capture_eq hps hnd]
  have halive := survivor_group_alive hps hnd
  unfold has_no_liberties at halive ⊢
  rw [decide_eq_false_iff_not] at halive ⊢
  push_neg at halive
  rcases halive with ⟨r, hr, hrl⟩
  push_neg
  refine ⟨r, hr, ?_⟩
  have hrl' : stoneHasLiberty n b r.1 r.2 = true := by
    cases hcase : stoneHasLiberty n b r.1 r.2 with
    | false => exact absurd hcase hrl
    | true => rfl
  rw [stoneHasLiberty_of_zeroes (fun q hq => capture_preserves_empty q hq) hrl']
  simp

theorem capture_stones_frame (n : Nat) (b : Board) (c : Color) (q : Pos) :
    (capture_stones n b c).1 q = b q ∨
      ((capture_stones n b c).1 q = 0 ∧ b q = c.code) := by
  rw [capture_stones_board]
  unfold removeSet
  by_cases hq : ∃ g ∈ deadGroups n b c, q ∈ g
  · right
    refine ⟨by simp [hq], ?_⟩
    rcases hq with ⟨g, hgD, hqg⟩
    exact (mem_stonesOf.1 (group_subset_stones (Finset.mem_filter.1 hgD).1 hqg)).2
  · left
    simp [hq]

theorem capture_removes_dead {n : Nat} {b : Board} {c : Color} {g : Finset Pos}
    (hg : g ∈ get_stone_groups n b c) (hdead : has_no_liberties n b g = true)
    {p : Pos} (hp : p ∈ g) : (capture_stones n b c).1 p = 0 := by
  rw [capture_stones_board]
  unfold removeSet
  rw [if_pos ⟨g, Finset.mem_filter.2 ⟨hg, hdead⟩, hp⟩]

theorem handle_click_board {n : Nat} {s : GameState} {col row : Int}
    (h : is_valid_move col row n s.board = true) :
    (handle_click n s col row).board =
      (capture_stones n
        (setCell s.board (col.toNat, row.toNat) (if s.black_turn then 1 else 2))
        (if s.black_turn then Color.white else Color.black)).1 := by
  unfold handle_click place_stone handle_captures
  rw [if_neg (by simp [h])]
  by_cases hb : s.black_turn <;> simp [hb]

theorem stoneHasLiberty_true_iff {n : Nat} {b : Board} {x y : Nat}
    (hx : x < n) (hy : y < n) :
    stoneHasLiberty n b x y = true ↔
      ∃ q : Pos, adjacent (x, y) q ∧ inBounds n q ∧ b q = 0 := by
  unfold stoneHasLiberty
  simp only [Bool.or_eq_true, Bool.and_eq_true, decide_eq_true_eq]
  constructor
  · rintro (((⟨h1, h2⟩ | ⟨h1, h2⟩) | ⟨h1, h2⟩) | ⟨h1, h2⟩)
    · exact ⟨(x - 1, y), Or.inr ⟨rfl, Or.inl (by omega)⟩, ⟨by omega, hy⟩, h2⟩
    · exact ⟨(x, y - 1), Or.inl ⟨rfl, Or.inl (by omega)⟩, ⟨hx, by omega⟩, h2⟩
    · exact ⟨(x + 1, y), Or.inr ⟨rfl, Or.inr rfl⟩, ⟨by omega, hy⟩, h2⟩
    · exact ⟨(x, y + 1), Or.inl ⟨rfl, Or.inr rfl⟩, ⟨hx, by omega⟩, h2⟩
  · rintro ⟨⟨qx, qy⟩, hadj, hbnd, hempty⟩
    rcases hbnd with ⟨hqx, hqy⟩
    rcases hadj with ⟨h1, h2 | h2⟩ | ⟨h1, h2 | h2⟩
    · refine Or.inl (Or.inl (Or.inr ⟨by omega, ?_⟩))
      have hsub : qy = y - 1 := by omega
      have hxx : qx = x := by omega
      rw [← hxx, ← hsub]
      exact hempty
    · refine Or.inr ⟨by omega, ?_⟩
      have hsub : qy = y + 1 := by omega
      have hxx : qx = x := by omega
      rw [← hxx, ← hsub]
      exact hempty
    · refine Or.inl (Or.inl (Or.inl ⟨by omega, ?_⟩))
      have hsub : qx = x - 1 := by omega
      have hyy : qy = y := by omega
      rw [← hyy, ← hsub]
      exact hempty
    · refine Or.inl (Or.inr ⟨by omega, ?_⟩)
      have hsub : qx = x + 1 := by omega
      have hyy : qy = y := by omega
      rw [← hyy, ← hsub]
      exact hempty

theorem has_no_liberties_iff_aux {n : Nat} {b : Board} {g : Finset Pos}
    (hin : ∀ p ∈ g, inBounds n p) :
    has_no_liberties n b g = true ↔
      ∀ p ∈ g, ∀ q : Pos, adjacent p q → inBounds n q → b q ≠ 0 := by
  unfold has_no_liberties
  rw [decide_eq_true_eq]
  refine forall_congr' fun p => forall_congr' fun hp => ?_
  rcases hin p hp with ⟨hx, hy⟩
  rw [← Bool.not_eq_true, stoneHasLiberty_true_iff hx hy]
  push_neg
  constructor
  · intro h q hadj hbnd
    exact h q hadj hbnd
  · intro h q hadj hbnd
    exact h q hadj hbnd

theorem is_valid_move_true_iff (n : Nat) (b : Board) (col row : Int) :
    is_valid_move col row n b = true ↔
      0 ≤ col ∧ col < (n : Int) ∧ 0 ≤ row ∧ row < (n : Int) ∧
        b (col.toNat, row.toNat) = 0 := by
  unfold is_valid_move
  split_ifs with h1 h2
  · simp only [Bool.false_eq_true, false_iff]
    simp only [Bool.or_eq_true, decide_eq_true_eq] at h1
    omega
  · simp only [Bool.false_eq_true, false_iff]
    simp only [Bool.or_eq_true, decide_eq_true_eq] at h2
    omega
  · simp only [Bool.or_eq_true, decide_eq_true_eq] at h1 h2
    push_neg at h1 h2
    simp only [decide_eq_true_eq]
    constructor
    · intro h
      exact ⟨h1.1, h1.2, h2.1, h2.2, h⟩
    · intro h
      exact h.2.2.2.2

theorem is_valid_move_false_of (n : Nat) (b : Board) (col row : Int)
    (h : col < 0 ∨ (n : Int) ≤ col ∨ row < 0 ∨ (n : Int) ≤ row ∨
      b (col.toNat, row.toNat) ≠ 0) :
    is_valid_move col row n b = false := by
  rw [← Bool.not_eq_true, is_valid_move_true_iff]
  rintro ⟨h1, h2, h3, h4, h5⟩
  rcases h with h | h | h | h | h
  · omega
  · omega
  · omega
  · omega
  · exact h h5

/-- Claim C1: the sequential capture sweep (walking the materialised
group list and mutating the board between liberty checks) produces
exactly the board and captured count of the simultaneous evaluation of
every group's liberties against the board as it stood before any
removal; in particular every group with zero snapshot liberties — also
when several groups die from one move — has all its stones removed. -/
theorem claim_C1_sequential_sweep_eq_simultaneous (n : Nat) (b : Board) (c : Color) :
    capture_stones n b c = capture_simultaneous n b c ∧
    ∀ g ∈ get_stone_groups n b c, has_no_liberties n b g = true →
      ∀ p ∈ g, (capture_stones n b c).1 p = 0 :=
  ⟨capture_stones_eq n b c, fun _ hg hdead _ hp => capture_removes_dead hg hdead hp⟩

theorem claim_C1_witness :
    capture_stones 3 bTwo Color.black = capture_simultaneous 3 bTwo Color.black ∧
    ({((0 : Nat), (0 : Nat))} : Finset Pos) ∈ get_stone_groups 3 bTwo Color.black ∧
    ({((2 : Nat), (0 : Nat))} : Finset Pos) ∈ get_stone_groups 3 bTwo Color.black ∧
    (capture_stones 3 bTwo Color.black).1 ((0 : Nat), (0 : Nat)) = 0 ∧
    (capture_stones 3 bTwo Color.black).1 ((2 : Nat), (0 : Nat)) = 0 :=
  ⟨(claim_C1_sequential_sweep_eq_simultaneous 3 bTwo Color.black).1,
   by decide, by decide,
   (claim_C1_sequential_sweep_eq_simultaneous 3 bTwo Color.black).2
     {((0 : Nat), (0 : Nat))} (by decide) (by decide) ((0 : Nat), (0 : Nat)) (by decide),
   (claim_C1_sequential_sweep_eq_simultaneous 3 bTwo Color.black).2
     {((2 : Nat), (0 : Nat))} (by decide) (by decide) ((2 : Nat), (0 : Nat)) (by decide)⟩

/-- Claim C2, counterexample: on a 2 × 2 board with white stones on both
in-bounds neighbours of the corner, black's placement at (0, 0) completes
a move (placement plus capture pass) after which black's group {(0, 0)}
is still on the board with zero liberties — the capture pass only sweeps
the opponent of the mover, so the claim as stated is false. -/
theorem claim_C2_counterexample :
    is_valid_move 0 0 2 sSuicide.board = true ∧
    ({((0 : Nat), (0 : Nat))} : Finset Pos) ∈
      get_stone_groups 2 (handle_click 2 sSuicide 0 0).board Color.black ∧
    has_no_liberties 2 (handle_click 2 sSuicide 0 0).board
      {((0 : Nat), (0 : Nat))} = true := by
  decide

/-- Claim C2 (amended): after a completed move, no group of the swept
color — the opponent of the mover — remains with zero liberties; the
mover's own color is not swept and may keep a zero-liberty group. -/
theorem claim_C2_amended_swept_color_alive (n : Nat) (s : GameState) (col row : Int)
    (hv : is_valid_move col row n s.board = true) :
    ∀ g ∈ get_stone_groups n (handle_click n s col row).board
        (if s.black_turn then Color.white else Color.black),
      has_no_liberties n (handle_click n s col row).board g = false := by
  rw [handle_click_board hv]
  exact capture_no_dead_group n _ _

theorem claim_C2_witness :
    is_valid_move 0 0 2 sSuicide.board = true ∧
    has_no_liberties 2 (handle_click 2 sSuicide 0 0).board
      {((0 : Nat), (1 : Nat))} = false :=
  ⟨by decide,
   claim_C2_amended_swept_color_alive 2 sSuicide 0 0 (by decide)
     {((0 : Nat), (1 : Nat))} (by decide)⟩

/-- Claim C3: the code has no terminal game-over state.  At a state
whose winner is already decided (black's prisoner count has reached the
winning score), a click on an empty cell is still applied — the board
changes — and a pass still toggles the turn; nothing is rejected. -/
theorem claim_C3_no_game_over_guard :
    check_winner sWon = some Color.black ∧
    sWon.board ((0 : Nat), (0 : Nat)) = 0 ∧
    (handle_click 2 sWon 0 0).board ((0 : Nat), (0 : Nat)) = 2 ∧
    (pass_move sWon).black_turn ≠ sWon.black_turn := by
  decide

/-- Claim C4: `check_winner` returns Black as soon as black's prisoner
count reaches `WINNING_SCORE`, otherwise White when white's count does,
otherwise no winner; when both counters reach the score, Black wins the
tie-break because black is tested first. -/
theorem claim_C4_check_winner_cases (s : GameState) :
    (WINNING_SCORE ≤ s.prisoners_black → check_winner s = some Color.black) ∧
    (s.prisoners_black < WINNING_SCORE → WINNING_SCORE ≤ s.prisoners_white →
      check_winner s = some Color.white) ∧
    (s.prisoners_black < WINNING_SCORE → s.prisoners_white < WINNING_SCORE →
      check_winner s = none) ∧
    (WINNING_SCORE ≤ s.prisoners_black → WINNING_SCORE ≤ s.prisoners_white →
      check_winner s = some Color.black) := by
  unfold check_winner
  refine ⟨fun h => ?_, fun h1 h2 => ?_, fun h1 h2 => ?_, fun h1 _ => ?_⟩
  · rw [if_pos h]
  · rw [if_neg (by omega), if_pos h2]
  · rw [if_neg (by omega), if_neg (by omega)]
  · rw [if_pos h1]

theorem claim_C4_witness :
    check_winner { board := bEmpty, black_turn := true, prisoners_black := 1, prisoners_white := 0 } = some Color.black ∧
    check_winner { board := bEmpty, black_turn := true, prisoners_black := 0, prisoners_white := 1 } = some Color.white ∧
    check_winner { board := bEmpty, black_turn := true, prisoners_black := 0, prisoners_white := 0 } = none ∧
    check_winner { board := bEmpty, black_turn := true, prisoners_black := 1, prisoners_white := 1 } = some Color.black :=
  ⟨(claim_C4_check_winner_cases _).1 (by decide),
   (claim_C4_check_winner_cases _).2.1 (by decide) (by decide),
   (claim_C4_check_winner_cases _).2.2.1 (by decide) (by decide),
   (claim_C4_check_winner_cases _).2.2.2 (by decide) (by decide)⟩

/-- Claim C5: `is_valid_move` is true exactly when both coordinates lie
in `[0, n)` and the addressed cell is empty; any out-of-range coordinate
makes it false regardless of the board contents. -/
theorem claim_C5_is_valid_move_iff (n : Nat) (b : Board) (col row : Int) :
    (is_valid_move col row n b = true ↔
      0 ≤ col ∧ col < (n : Int) ∧ 0 ≤ row ∧ row < (n : Int) ∧
        b (col.toNat, row.toNat) = 0) ∧
    ((col < 0 ∨ (n : Int) ≤ col ∨ row < 0 ∨ (n : Int) ≤ row) →
      is_valid_move col row n b = false) :=
  ⟨is_valid_move_true_iff n b col row,
   fun h => is_valid_move_false_of n b col row
     (by rcases h with h | h | h | h
         · exact Or.inl h
         · exact Or.inr (Or.inl h)
         · exact Or.inr (Or.inr (Or.inl h))
         · exact Or.inr (Or.inr (Or.inr (Or.inl h))))⟩

theorem claim_C5_witness :
    (is_valid_move 0 0 2 bOne = true ↔
      (0 : Int) ≤ 0 ∧ (0 : Int) < (2 : Nat) ∧ (0 : Int) ≤ 0 ∧ (0 : Int) < (2 : Nat) ∧
        bOne (((0 : Int)).toNat, ((0 : Int)).toNat) = 0) ∧
    (((-1 : Int) < 0 ∨ ((2 : Nat) : Int) ≤ -1 ∨ (0 : Int) < 0 ∨ ((2 : Nat) : Int) ≤ 0) →
      is_valid_move (-1) 0 2 bOne = false) :=
  ⟨(claim_C5_is_valid_move_iff 2 bOne 0 0).1, (claim_C5_is_valid_move_iff 2 bOne (-1) 0).2⟩

/-- Claim C6: `has_no_liberties` is true exactly when every member of
the group has all of its in-bounds 4-neighbours non-empty; positions
outside the grid neither grant a liberty nor block one. -/
theorem claim_C6_has_no_liberties_iff (n : Nat) (b : Board) (g : Finset Pos)
    (hin : ∀ p ∈ g, inBounds n p) :
    has_no_liberties n b g = true ↔
      ∀ p ∈ g, ∀ q : Pos, adjacent p q → inBounds n q → b q ≠ 0 :=
  has_no_liberties_iff_aux hin

theorem claim_C6_witness :
    (∀ p ∈ ({((0 : Nat), (0 : Nat))} : Finset Pos), inBounds 2 p) ∧
    has_no_liberties 2 bFull {((0 : Nat), (0 : Nat))} = true :=
  ⟨by decide,
   (claim_C6_has_no_liberties_iff 2 bFull {((0 : Nat), (0 : Nat))} (by decide)).mpr
     (fun p _ q _ _ => by simp [bFull])⟩

/-- Claim C7: group-finding partitions the color's stones: the groups
cover exactly the stones of the color, are pairwise disjoint, each stone
lies in exactly one group, each group is internally 4-connected and
closed under same-color adjacency (maximal), and an isolated stone forms
a singleton group. -/
theorem claim_C7_groups_partition (n : Nat) (b : Board) (c : Color) :
    (∀ p : Pos, (∃ g ∈ get_stone_groups n b c, p ∈ g) ↔ p ∈ stonesOf n b c) ∧
    (∀ g₁ ∈ get_stone_groups n b c, ∀ g₂ ∈ get_stone_groups n b c,
      g₁ ≠ g₂ → ∀ p ∈ g₁, p ∉ g₂) ∧
    (∀ p ∈ stonesOf n b c, ∃! g, g ∈ get_stone_groups n b c ∧ p ∈ g) ∧
    (∀ g ∈ get_stone_groups n b c, ∀ p ∈ g, ∀ q ∈ g, Conn (stonesOf n b c) p q) ∧
    (∀ g ∈ get_stone_groups n b c, ∀ p ∈ g, ∀ q ∈ stonesOf n b c,
      adjacent p q → q ∈ g) ∧
    (∀ p ∈ stonesOf n b c, (∀ q ∈ stonesOf n b c, ¬ adjacent p q) →
      ({p} : Finset Pos) ∈ get_stone_groups n b c) := by
  refine ⟨groups_cover,
    fun g₁ h1 g₂ h2 hne p hp => groups_disjoint h1 h2 hne hp,
    fun p hp => ⟨component (stonesOf n b c) p,
      ⟨(stone_mem_own_group hp).1, (stone_mem_own_group hp).2⟩, ?_⟩,
    fun g hg p hp q hq => group_connected hg hp hq,
    fun g hg p hp q hq hadj => groups_closed hg hp hq hadj,
    fun p hp hiso => singleton_group hp hiso⟩
  rintro g' ⟨hg', hpg'⟩
  exact group_eq_component hg' hpg'

theorem claim_C7_witness :
    (∃ g ∈ get_stone_groups 2 bOne Color.black, ((0 : Nat), (0 : Nat)) ∈ g) ∧
    ({((0 : Nat), (0 : Nat))} : Finset Pos) ∈ get_stone_groups 2 bOne Color.black :=
  ⟨((claim_C7_groups_partition 2 bOne Color.black).1 ((0 : Nat), (0 : Nat))).mpr
     (by decide),
   (claim_C7_groups_partition 2 bOne Color.black).2.2.2.2.2 ((0 : Nat), (0 : Nat))
     (by decide) (by decide)⟩

/-- Claim C8: after a valid placement (in-bounds, empty cell) and the
capture pass it triggers, the placed cell still holds the mover's code:
only the opponent's stones can be removed by the sweep. -/
theorem claim_C8_placed_stone_persists (n : Nat) (s : GameState) (col row : Int)
    (hv : is_valid_move col row n s.board = true) :
    (handle_click n s col row).board (col.toNat, row.toNat) =
      (if s.black_turn then 1 else 2) := by
  rw [handle_click_board hv]
  rcases capture_stones_frame n
      (setCell s.board (col.toNat, row.toNat) (if s.black_turn then 1 else 2))
      (if s.black_turn then Color.white else Color.black)
      (col.toNat, row.toNat) with h | ⟨_, hcode⟩
  · rw [h]
    unfold setCell
    rw [if_pos rfl]
  · exfalso
    unfold setCell at hcode
    rw [if_pos rfl] at hcode
    by_cases hb : s.black_turn <;> simp [hb, Color.code] at hcode

theorem claim_C8_witness :
    is_valid_move 0 0 2 sSuicide.board = true ∧
    (handle_click 2 sSuicide 0 0).board ((0 : Nat), (0 : Nat)) =
      (if sSuicide.black_turn then 1 else 2) :=
  ⟨by decide, claim_C8_placed_stone_persists 2 sSuicide 0 0 (by decide)⟩

/-- Claim C9: a click on an out-of-range or occupied position fails the
validity test and returns with the whole state — board, turn indicator
and both prisoner counters — exactly as it was. -/
theorem claim_C9_invalid_move_unchanged (n : Nat) (s : GameState) (col row : Int)
    (h : col < 0 ∨ (n : Int) ≤ col ∨ row < 0 ∨ (n : Int) ≤ row ∨
      s.board (col.toNat, row.toNat) ≠ 0) :
    is_valid_move col row n s.board = false ∧ handle_click n s col row = s := by
  have hval := is_valid_move_false_of n s.board col row h
  refine ⟨hval, ?_⟩
  unfold handle_click
  rw [if_pos hval]

theorem claim_C9_witness :
    ((-1 : Int) < 0 ∨ ((2 : Nat) : Int) ≤ -1 ∨ (0 : Int) < 0 ∨ ((2 : Nat) : Int) ≤ 0 ∨
      sSuicide.board (((-1 : Int)).toNat, ((0 : Int)).toNat) ≠ 0) ∧
    is_valid_move (-1) 0 2 sSuicide.board = false ∧
    handle_click 2 sSuicide (-1) 0 = sSuicide :=
  ⟨Or.inl (by decide),
   (claim_C9_invalid_move_unchanged 2 sSuicide (-1) 0 (Or.inl (by decide))).1,
   (claim_C9_invalid_move_unchanged 2 sSuicide (-1) 0 (Or.inl (by decide))).2⟩

/-- Claim C10: the capture sweep for a color changes only cells holding
that color, and only by clearing them to empty; every cell of the other
color and every empty cell is left exactly as it was, so the mover's own
stones are never removed by the pass over the opponent. -/
theorem claim_C10_capture_frame (n : Nat) (b : Board) (c : Color) (q : Pos) :
    ((capture_stones n b c).1 q = b q ∨
      ((capture_stones n b c).1 q = 0 ∧ b q = c.code)) ∧
    (b q ≠ c.code → (capture_stones n b c).1 q = b q) := by
  refine ⟨capture_stones_frame n b c q, fun hne => ?_⟩
  rcases capture_stones_frame n b c q with h | ⟨_, hcode⟩
  · exact h
  · exact absurd hcode hne

theorem claim_C10_witness :
    bSuicide ((0 : Nat), (1 : Nat)) ≠ Color.code Color.black ∧
    (capture_stones 2 bSuicide Color.black).1 ((0 : Nat), (1 : Nat)) =
      bSuicide ((0 : Nat), (1 : Nat)) :=
  ⟨by decide, (claim_C10_capture_frame 2 bSuicide Color.black ((0 : Nat), (1 : Nat))).2
    (by decide)⟩

end AtariGo
